import Mathlib

/-!
Verification development for the RAS archiver (src/src/archiver_ras.c), a
PhysicsFS backend for the Max Payne 2 archive container.

The C source is shallowly embedded: byte buffers are `List Nat` (one Nat
per byte), 32-bit unsigned arithmetic is `Nat` with explicit `% 2^32`,
32-bit signed arithmetic is `Int` normalised with `wrap32`, and fallible
code returns `Option`/`Except`.  An out-of-bounds access in the C code
(undefined behavior) is modelled as the distinguished outcome `none`
(respectively the error `RasErr.undef`): the C program has no defined
result there, so the model refuses to produce one.

Names follow the C source (`ras_decrypt`, `RAS_loadFiles`,
`ras_find_entry`, ...).  The only definitions not taken from
archiver_ras.c are marked `Modelled from the spec:` in their doc comment;
they model PhysicsFS-core collaborators (the string hash, the byte-source
abstraction) that are not part of src/.
-/

/-- Truncation to 32 unsigned bits (a `PHYSFS_uint32` value). -/
def u32 (x : Nat) : Nat := x % 2 ^ 32

/-- 32-bit unsigned subtraction `a - b` with wraparound, as C computes it
for `PHYSFS_uint32` operands. -/
def sub32 (a b : Nat) : Nat := (a + 2 ^ 32 - b % 2 ^ 32) % 2 ^ 32

/-- Reinterpretation of an integer as a 32-bit signed value
(two's complement), the result of storing into a `PHYSFS_sint32`. -/
def wrap32 (x : Int) : Int := (x + 2 ^ 31) % 2 ^ 32 - 2 ^ 31

/-- The 32 low bits of an integer read as an unsigned value, the result of
casting to `PHYSFS_uint32`. -/
def uns32 (x : Int) : Nat := (x % 2 ^ 32).toNat

/-- A `PHYSFS_uint32` value `v` read back as signed (two's complement). -/
def toSigned32 (v : Nat) : Int := if v < 2 ^ 31 then (v : Int) else (v : Int) - 2 ^ 32

/-- Little-endian decoding of the four bytes of `data` at offset `p`,
as the C code's `*((PHYSFS_uint32*) (data + p))` on a little-endian host. -/
def le32at (data : List Nat) (p : Nat) : Nat :=
  data.getD p 0 + 256 * data.getD (p + 1) 0 + 65536 * data.getD (p + 2) 0 +
    16777216 * data.getD (p + 3) 0

/-- Little-endian decoding of the first four bytes of a buffer. -/
def le32 (data : List Nat) : Nat := le32at data 0

/-- `RAS_SIG`: the signature constant `0x00534152` the archiver compares
the first word of the archive against. -/
def RAS_SIG : Nat := 0x00534152

/-- `RAS_FULLHEADERLEN`: size of signature + seed + encrypted header. -/
def RAS_FULLHEADERLEN : Nat := 44

/-- `RAS_ROL` on a byte, truncated to 8 bits as the source stores it into
a `PHYSFS_uint8`: `(PHYSFS_uint8)((x << y) | (x >> (8 - y)))`. -/
def rol8 (x y : Nat) : Nat := (((x % 256) <<< y) ||| ((x % 256) >>> (8 - y))) % 256

/-- One advance of the running seed of `ras_decrypt` (C lines 373-374):
`edx = ((sint32)(((sint64)seed * (sint32)0xb92143fb) >> 32) + seed) >> 7;`
`seed = (seed * 0xab) - ((((uint32)edx >> 0x1f) + edx) * 0x763d);`
The 64-bit product is exact in `Int`; both arithmetic right shifts are
floor divisions; every 32-bit store is a `wrap32`. -/
def ras_seedStep (seed : Int) : Int :=
  let edx : Int :=
    Int.fdiv (wrap32 (wrap32 (Int.fdiv (seed * ((0xb92143fb : Int) - 2 ^ 32)) (2 ^ 32)) + seed)) (2 ^ 7)
  wrap32 (seed * 0xab - (((uns32 edx / 2 ^ 31 : Nat) : Int) + edx) * 0x763d)

/-- The loop body of `ras_decrypt` applied to the bytes of the buffer from
position `pos` on, threading the running seed.  For each byte (C lines
371-376): rotate left by `pos % 5`, advance the seed, and store
`(((uint8)pos + 3) * 6) ^ rotated) + (uint8)seed` (all stores truncate to
8 bits). -/
def ras_decryptGo : List Nat → Nat → Int → List Nat
  | [], _, _ => []
  | b :: rest, pos, seed =>
    let rot := rol8 b (pos % 5)
    let seed1 := ras_seedStep seed
    ((((pos % 256 + 3) * 6) ^^^ rot) + uns32 seed1 % 256) % 256 ::
      ras_decryptGo rest (pos + 1) seed1

/-- `ras_decrypt(data, length, seed)` (C lines 363-379): if the seed is 0
substitute 1, then transform every byte in order.  The `length` argument
of the C function is always the length of the buffer, so the model takes
just the buffer. -/
def ras_decrypt (data : List Nat) (seed : Int) : List Nat :=
  ras_decryptGo data 0 (if seed = 0 then 1 else seed)

/-- The C scan loop `while (ptr < datalen && data[ptr] != 0) ptr++;`:
first index `i ≥ ptr` with `data[i] = 0`, or `data.length` if the buffer
runs out first (or `ptr` itself if `ptr` is already past the end). -/
def scanNul (data : List Nat) (ptr : Nat) : Nat :=
  ptr + ((data.drop ptr).takeWhile (fun c => c != 0)).length

/-- `strrchr`: index of the LAST occurrence of `c` in the list, if any. -/
def lastIdxOf (l : List Nat) (c : Nat) : Option Nat :=
  match l with
  | [] => none
  | x :: xs =>
    match lastIdxOf xs c with
    | some i => some (i + 1)
    | none => if x = c then some 0 else none

/-- One directory record of the decrypted directory blob (`RAS_dir`):
only the normalized name is kept (`namelen` is its length). -/
structure RAS_dir where
  name : List Nat
deriving DecidableEq, Repr

/-- The loop body of `RAS_loadDirs` (C lines 387-409): scan a
NUL-terminated name, strip one leading backslash, translate remaining
backslashes (92) to forward slashes (47), then skip the NUL and the fixed
16-byte trailing region.  The C loop never reads out of bounds: when the
blob is exhausted it silently produces empty names. -/
def RAS_loadDirsAux (data : List Nat) : Nat → Nat → List RAS_dir
  | _, 0 => []
  | ptr, n + 1 =>
    let e := scanNul data ptr
    let base := if e > ptr ∧ data.getD ptr 0 = 92 then ptr + 1 else ptr
    let name := ((data.drop base).take (e - base)).map (fun c => if c = 92 then 47 else c)
    ⟨name⟩ :: RAS_loadDirsAux data (e + 17) n

/-- `RAS_loadDirs(data, datalen, dircount)` (C lines 381-411). -/
def RAS_loadDirs (data : List Nat) (dircount : Nat) : List RAS_dir :=
  RAS_loadDirsAux data 0 dircount

/-- One file record of the decrypted file blob (`RAS_file`). -/
structure RAS_file where
  name : List Nat
  uncompsize : Nat
  size : Nat
  dir : Nat
  offset : Nat
deriving DecidableEq, Repr

/-- The loop body of `RAS_loadFiles` (C lines 419-448): scan a
NUL-terminated raw name, then read three 32-bit fields at offsets 0, 4 and
12 past the NUL (uncompressed size, size, parent-directory index), build
the full name by prepending the parent directory's name, assign the
running payload `offset` cursor and advance it by `size`, then skip the
40-byte fixed region.  The C code bounds-checks neither the three 32-bit
reads against the blob length nor the directory index against the number
of decoded directories; either out-of-range access is undefined behavior
and is modelled as `none`. -/
def RAS_loadFilesAux (data : List Nat) (dirs : List RAS_dir) : Nat → Nat → Nat → Option (List RAS_file)
  | _, _, 0 => some []
  | ptr, offset, n + 1 =>
    let e := scanNul data ptr
    let rawname := (data.drop ptr).take (e - ptr)
    let p := e + 1
    if p + 16 ≤ data.length then
      let usz := le32at data p
      let sz := le32at data (p + 4)
      let d := le32at data (p + 12)
      match dirs.get? d with
      | none => none
      | some dn =>
        match RAS_loadFilesAux data dirs (p + 40) ((offset + sz) % 2 ^ 32) n with
        | none => none
        | some fs => some (⟨dn.name ++ rawname, usz, sz, d, offset⟩ :: fs)
    else none

/-- `RAS_loadFiles(data, datalen, filecount, dirs, dircount, offset)`
(C lines 413-450).  Note the C function receives `dircount` but never
uses it: the directory index read from each record is applied to `dirs`
unchecked. -/
def RAS_loadFiles (data : List Nat) (filecount : Nat) (dirs : List RAS_dir) (offset : Nat) :
    Option (List RAS_file) :=
  RAS_loadFilesAux data dirs 0 offset filecount

/-- `RasEntryType` (C lines 82-86). -/
inductive RasEntryType where
  | file
  | directory
deriving DecidableEq, Repr

/-- `RASentry` (C lines 88-98) without its intrusive pointers: the
`hashnext` chain is the order of the bucket lists of `RASinfo.hash`, and
the `children`/`sibling` lists are the `RASinfo.children` association
list, both keyed by the entry's unique full path. -/
structure RASentry where
  name : List Nat
  type_ : RasEntryType
  offset : Nat
  compressed_size : Nat
  uncompressed_size : Nat
deriving DecidableEq, Repr

/-- `RASinfo` (C lines 100-106): the hash table (one list per bucket, in
`hashnext` chain order), the root entry, and the child lists of every
directory entry (`children`/`sibling` pointers), keyed by the directory's
path; the root's key is the empty path. -/
structure RASinfo where
  hashBuckets : Nat
  hash : List (List RASentry)
  root : RASentry
  children : List (List Nat × List (List Nat))
deriving DecidableEq, Repr

/-- Child list recorded for the directory entry whose path is `p`. -/
def childLookup (cs : List (List Nat × List (List Nat))) (p : List Nat) : List (List Nat) :=
  match cs with
  | [] => []
  | (q, l) :: rest => if q = p then l else childLookup rest p

/-- Linking a new entry `c` at the head of the child list of the
directory at path `p` (`entry->sibling = parent->children;
parent->children = entry;`, C lines 305-306). -/
def childAdd (cs : List (List Nat × List (List Nat))) (p c : List Nat) :
    List (List Nat × List (List Nat)) :=
  match cs with
  | [] => [(p, [c])]
  | (q, l) :: rest => if q = p then (q, c :: l) :: rest else (q, l) :: childAdd rest p c

/-- Modelled from the spec: the PhysicsFS core helper
`__PHYSFS_hashString(s, strlen(s))` is not part of src/; per the spec it
is only "a string hash of the full path" (section 4.4), so any
deterministic hash is faithful; a djb-style fold is used. -/
def hashString (s : List Nat) : Nat :=
  s.foldl (fun h c => ((h * 33) ^^^ c) % 2 ^ 32) 5381

/-- `ras_hash_string` (C lines 213-216). -/
def ras_hash_string (info : RASinfo) (s : List Nat) : Nat :=
  hashString s % info.hashBuckets

/-- All entries held by the hash table. -/
def entries (info : RASinfo) : List RASentry := info.hash.flatten

/-- Some entry with path `n` is in the hash table. -/
def hasName (info : RASinfo) (n : List Nat) : Prop := ∃ e ∈ entries info, e.name = n

/-- Some DIRECTORY entry with path `n` is in the hash table. -/
def dirAt (info : RASinfo) (n : List Nat) : Prop :=
  ∃ e ∈ entries info, e.name = n ∧ e.type_ = RasEntryType.directory

/-- The move-to-front scan of `ras_find_entry`'s bucket loop (C lines
229-244): find the first chain link whose name is the path, unlink it and
return it with the remaining chain (order preserved). -/
def chainRemoveFirst (bucket : List RASentry) (path : List Nat) :
    Option (RASentry × List RASentry) :=
  match bucket with
  | [] => none
  | e :: rest =>
    if e.name = path then some (e, rest)
    else
      match chainRemoveFirst rest path with
      | none => none
      | some (f, r) => some (f, e :: r)

/-- `ras_find_entry` (C lines 219-247): the empty path resolves to the
root; otherwise search the path's bucket, and on a hit move the found
entry to the front of the bucket's chain.  A miss leaves the table
untouched and returns `none` (the C code fails `PHYSFS_ERR_NOT_FOUND`). -/
def ras_find_entry (info : RASinfo) (path : List Nat) : Option RASentry × RASinfo :=
  if path = [] then (some info.root, info)
  else
    let hashval := ras_hash_string info path
    match chainRemoveFirst (info.hash.getD hashval []) path with
    | none => (none, info)
    | some (e, rest) => (some e, { info with hash := info.hash.set hashval (e :: rest) })

/-- The zero-size directory entry `ras_hash_ancestors` materializes for a
missing ancestor (C lines 273-279). -/
def mkDirEntry (dn : List Nat) : RASentry :=
  ⟨dn, RasEntryType.directory, 0, 0, 0⟩

/-- The tail of `ras_hash_entry` (C lines 301-306) once the parent is
known: push the entry onto the front of its bucket's chain and onto the
front of the parent's child list. -/
def insertEntry (info : RASinfo) (entry : RASentry) (parentPath : List Nat) : RASinfo :=
  let hashval := ras_hash_string info entry.name
  { info with
    hash := info.hash.set hashval (entry :: info.hash.getD hashval []),
    children := childAdd info.children parentPath entry.name }

/-- `ras_hash_ancestors` (C lines 252-288), with the mutually recursive
`ras_hash_entry` call on the freshly built directory entry inlined (that
call is `ras_hash_ancestors` on the shorter name followed by
`insertEntry`).  Returns the updated table and the parent's path, `none`
on `PHYSFS_ERR_CORRUPT` (an ancestor path exists but is not a directory).
The `fuel` argument only bounds the recursion depth; the C recursion
terminates because the ancestor name is strictly shorter, so any
`fuel > name.length` is enough and the top-level callers pass
`name.length + 1`. -/
def ras_hash_ancestorsF : Nat → RASinfo → List Nat → Option (RASinfo × List Nat)
  | 0, _, _ => none
  | fuel + 1, info, name =>
    match lastIdxOf name 47 with
    | none => some (info, [])
    | some i =>
      let dn := name.take i
      match ras_find_entry info dn with
      | (some f, info1) =>
        if f.type_ = RasEntryType.directory then some (info1, dn) else none
      | (none, info1) =>
        match ras_hash_ancestorsF fuel info1 dn with
        | none => none
        | some (info2, pp) => some (insertEntry info2 (mkDirEntry dn) pp, dn)

/-- `ras_hash_entry` (C lines 290-308): ensure all ancestors exist, then
link the entry into its hash bucket and its parent's child list.  `none`
is `PHYSFS_ERR_CORRUPT` from `ras_hash_ancestors`. -/
def ras_hash_entry (info : RASinfo) (entry : RASentry) : Option RASinfo :=
  match ras_hash_ancestorsF (entry.name.length + 1) info entry.name with
  | none => none
  | some (info1, parentPath) => some (insertEntry info1 entry parentPath)

/-- The error taxonomy of the archiver, matching the spec's names:
`undef` is the extra outcome standing for C undefined behavior
(an out-of-bounds access with no defined result). -/
inductive RasErr where
  | unsupported
  | truncated
  | corrupt
  | notFound
  | notAFile
  | ioFailed
  | undef
deriving DecidableEq, Repr

/-- `ras_load_entry` (C lines 310-333): copy the record's full name; a
trailing slash is stripped and marks a DIRECTORY entry, otherwise the
entry is a FILE.  An empty name makes the C code read `name[-1]`
(`namelen - 1` underflows): undefined behavior, modelled `none`. -/
def ras_load_entry (f : RAS_file) : Option RASentry :=
  match f.name.getLast? with
  | none => none
  | some c =>
    if c = 47 then some ⟨f.name.dropLast, RasEntryType.directory, f.offset, f.size, f.uncompsize⟩
    else some ⟨f.name, RasEntryType.file, f.offset, f.size, f.uncompsize⟩

/-- One iteration of the `ras_load_entries` loop (C lines 339-359): build
the entry; if its path is already present, overwrite the found entry's
offset and sizes in place through the pointer `ras_find_entry` returned
(the entry `ras_find_entry` just moved to the front of its chain — or the
root when the path is empty) and free the new node; otherwise hash the new
entry, failing `PHYSFS_ERR_CORRUPT` when `ras_hash_entry` does. -/
def ras_load_step (info : RASinfo) (f : RAS_file) : Except RasErr RASinfo :=
  match ras_load_entry f with
  | none => Except.error RasErr.undef
  | some e =>
    match ras_find_entry info e.name with
    | (some _, info1) =>
      if e.name = [] then
        let newroot := { info1.root with
          offset := e.offset
          compressed_size := e.compressed_size
          uncompressed_size := e.uncompressed_size }
        Except.ok { info1 with root := newroot }
      else
        let hashval := ras_hash_string info1 e.name
        match info1.hash.getD hashval [] with
        | old :: rest =>
          let upd := { old with
            offset := e.offset
            compressed_size := e.compressed_size
            uncompressed_size := e.uncompressed_size }
          Except.ok { info1 with hash := info1.hash.set hashval (upd :: rest) }
        | [] => Except.ok info1
    | (none, info1) =>
      match ras_hash_entry info1 e with
      | none => Except.error RasErr.corrupt
      | some info2 => Except.ok info2

/-- `ras_load_entries` (C lines 335-361): fold `ras_load_step` over the
decoded file records in declaration order. -/
def ras_load_entries (info : RASinfo) (files : List RAS_file) : Except RasErr RASinfo :=
  match files with
  | [] => Except.ok info
  | f :: rest =>
    match ras_load_step info f with
    | Except.error e => Except.error e
    | Except.ok info1 => ras_load_entries info1 rest

/-- `ras_alloc_hashtable` plus the zero-initialisation of `RASinfo` in
`RAS_openArchive` (C lines 452-466, 485-489): bucket count is
`entry_count / 5`, at least 1; all buckets empty; the root is a DIRECTORY
entry with the empty path. -/
def ras_initInfo (entry_count : Nat) : RASinfo :=
  let hb := if entry_count / 5 = 0 then 1 else entry_count / 5
  ⟨hb, List.replicate hb [], ⟨[], RasEntryType.directory, 0, 0, 0⟩, []⟩

/-- Modelled from the spec: `__PHYSFS_readAll(io, buf, n)` over the
byte-source collaborator (section 6) — read exactly `n` bytes at offset
`pos` of the source, failing when fewer are available (the spec's
`Truncated`). -/
def readBytes (src : List Nat) (pos n : Nat) : Option (List Nat) :=
  if pos + n ≤ src.length then some ((src.drop pos).take n) else none

/-- `RAS_openArchive` (C lines 470-535): check the signature word, read
the seed, decrypt the 36-byte section header, read and decrypt the file
and directory blobs, decode them, and build the index.  The four header
fields used are `filecount`, `dircount`, `fileinfolen`, `dirinfolen`
(the five trailing fields are ignored by the C code too).  The payload
offset cursor starts at `RAS_FULLHEADERLEN + fileinfolen + dirinfolen`
(32-bit arithmetic) and the hash table is sized from
`dircount + filecount` (32-bit addition). -/
def RAS_openArchive (src : List Nat) : Except RasErr RASinfo :=
  match readBytes src 0 4 with
  | none => Except.error RasErr.truncated
  | some sigB =>
    if le32 sigB ≠ RAS_SIG then Except.error RasErr.unsupported
    else
      match readBytes src 4 4 with
      | none => Except.error RasErr.truncated
      | some seedB =>
        let seed := toSigned32 (le32 seedB)
        match readBytes src 8 36 with
        | none => Except.error RasErr.truncated
        | some hdrB =>
          let hdr := ras_decrypt hdrB seed
          let filecount := le32at hdr 0
          let dircount := le32at hdr 4
          let fileinfolen := le32at hdr 8
          let dirinfolen := le32at hdr 12
          match readBytes src 44 fileinfolen with
          | none => Except.error RasErr.truncated
          | some fiB =>
            let fileinfodata := ras_decrypt fiB seed
            match readBytes src (44 + fileinfolen) dirinfolen with
            | none => Except.error RasErr.truncated
            | some diB =>
              let dirinfodata := ras_decrypt diB seed
              let dirs := RAS_loadDirs dirinfodata dircount
              match RAS_loadFiles fileinfodata filecount dirs
                  ((RAS_FULLHEADERLEN + fileinfolen + dirinfolen) % 2 ^ 32) with
              | none => Except.error RasErr.undef
              | some files => ras_load_entries (ras_initInfo ((dircount + filecount) % 2 ^ 32)) files

/-- Modelled from the spec: the seekable byte-source collaborator
(section 6) that backs an opened archive — a byte array with a cursor. -/
structure ByteSource where
  data : List Nat
  pos : Nat
deriving DecidableEq, Repr

/-- Modelled from the spec: the byte-source `read(buf, len)` — deliver up
to `len` bytes from the cursor and advance it; reading at or past the end
delivers zero bytes. -/
def src_read (s : ByteSource) (len : Nat) : List Nat × ByteSource :=
  let bytes := (s.data.drop s.pos).take len
  (bytes, { s with pos := s.pos + bytes.length })

/-- Modelled from the spec: the byte-source `seek(pos)` — reposition the
cursor, failing (with the source unchanged) when the target lies beyond
the end of the source. -/
def src_seek (s : ByteSource) (p : Nat) : Option ByteSource :=
  if p ≤ s.data.length then some { s with pos := p } else none

/-- `RASfileinfo` (C lines 108-113): the state behind one ReadView — the
duplicated byte-source handle, the opened entry's payload offset and
size (`entry->offset`, `entry->compressed_size`), and the logical
cursor `curPos`. -/
structure RASfileinfo where
  io : ByteSource
  offset : Nat
  compressed_size : Nat
  curPos : Nat
deriving DecidableEq, Repr

/-- `RAS_read` (C lines 115-130): clamp the requested length to
`compressed_size - curPos` (32-bit subtraction), read that many bytes
from the underlying source at its current position, and advance `curPos`
by the count actually read. -/
def RAS_read (f : RASfileinfo) (len : Nat) : List Nat × RASfileinfo :=
  let bytesLeft := sub32 f.compressed_size f.curPos
  let len1 := if bytesLeft < len then bytesLeft else len
  let r := src_read f.io len1
  (r.1, { f with io := r.2, curPos := (f.curPos + r.1.length) % 2 ^ 32 })

/-- `RAS_tell` (C lines 137-140). -/
def RAS_tell (f : RASfileinfo) : Nat := f.curPos

/-- `RAS_length` (C lines 156-160). -/
def RAS_length (f : RASfileinfo) : Nat := f.compressed_size

/-- The outcome of `RAS_seek`: success, `PHYSFS_ERR_PAST_EOF`, or a
failure reported by the underlying byte-source's seek. -/
inductive SeekRes where
  | ok
  | pastEOF
  | ioFailed
deriving DecidableEq, Repr

/-- `RAS_seek` (C lines 142-154): fail `PHYSFS_ERR_PAST_EOF` when the
target is at or past the entry's size; otherwise seek the underlying
source to `entry->offset + offset` and, only if that succeeded, set
`curPos` to the target. -/
def RAS_seek (f : RASfileinfo) (p : Nat) : SeekRes × RASfileinfo :=
  if f.compressed_size ≤ p then (SeekRes.pastEOF, f)
  else
    match src_seek f.io (f.offset + p) with
    | none => (SeekRes.ioFailed, f)
    | some io1 => (SeekRes.ok, { f with io := io1, curPos := p % 2 ^ 32 })

/-- The basename `RAS_enumerateFiles` reports for a child: the substring
after the last slash, or the whole name (C lines 548-549). -/
def basenameOf (n : List Nat) : List Nat :=
  match lastIdxOf n 47 with
  | none => n
  | some i => n.drop (i + 1)

/-- `RAS_enumerateFiles` (C lines 538-552): resolve the directory (the
lookup may reorder a bucket), then list the basenames of its children in
child-list order; a missing path or a non-directory yields the empty
enumeration with no error. -/
def RAS_enumerateFiles (info : RASinfo) (dname : List Nat) : List (List Nat) × RASinfo :=
  match ras_find_entry info dname with
  | (some e, info1) =>
    if e.type_ = RasEntryType.directory then
      ((childLookup info1.children e.name).map basenameOf, info1)
    else ([], info1)
  | (none, info1) => ([], info1)

/-- The stat record `RAS_stat` fills in (C lines 620-648). -/
structure RAS_statData where
  filesize : Nat
  isdir : Bool
  modtime : Nat
  createtime : Nat
  accesstime : Nat
  readonly : Bool
deriving DecidableEq, Repr

/-- `RAS_stat` (C lines 620-648): directories report size 0, files their
`compressed_size`; all times 0; always read-only.  A miss reports
failure (`PHYSFS_ERR_NOT_FOUND` from `ras_find_entry`). -/
def RAS_stat (info : RASinfo) (path : List Nat) : Option RAS_statData × RASinfo :=
  match ras_find_entry info path with
  | (none, info1) => (none, info1)
  | (some e, info1) =>
    if e.type_ = RasEntryType.directory then (some ⟨0, true, 0, 0, 0, true⟩, info1)
    else (some ⟨e.compressed_size, false, 0, 0, 0, true⟩, info1)

/-- `RAS_openRead` (C lines 555-597): resolve the path (`NotFound` on a
miss), refuse directories (`NotAFile`), duplicate the archive's
byte-source, seek it to the entry's payload offset, and hand back a
ReadView positioned at logical 0. -/
def RAS_openRead (info : RASinfo) (src : ByteSource) (path : List Nat) :
    Except RasErr RASfileinfo × RASinfo :=
  match ras_find_entry info path with
  | (none, info1) => (Except.error RasErr.notFound, info1)
  | (some e, info1) =>
    if e.type_ = RasEntryType.directory then (Except.error RasErr.notAFile, info1)
    else
      match src_seek src e.offset with
      | none => (Except.error RasErr.ioFailed, info1)
      | some s => (Except.ok ⟨s, e.offset, e.compressed_size, 0⟩, info1)

/-- The parent path `ras_hash_ancestors` derives: everything before the
last slash, or the root's empty path when there is no slash. -/
def parentPathOf (n : List Nat) : List Nat :=
  match lastIdxOf n 47 with
  | none => []
  | some i => n.take i

/-- Transcribed from the claim: "rotating it left circularly within 8
bits by pos mod 5" — the standard 8-bit left rotation. -/
def rotl8_spec (b r : Nat) : Nat := (b % 256) * 2 ^ (r % 8) % 256 + (b % 256) / 2 ^ (8 - r % 8)

/-- Transcribed from the claim (C4), to be compared with `ras_decryptGo`:
at each position take the rotated byte, advance the running seed by the
claimed formula (which is `ras_seedStep` verbatim), and set the byte to
`(((pos+3)*6) XOR rotatedByte) + low 8 bits of the updated seed` in
wrapping 8-bit arithmetic. -/
def decryptSpecGo : List Nat → Nat → Int → List Nat
  | [], _, _ => []
  | b :: rest, pos, seed =>
    let rot := rotl8_spec b (pos % 5)
    let seed1 := ras_seedStep seed
    (((((pos + 3) * 6) % 256) ^^^ rot) + uns32 seed1 % 256) % 256 ::
      decryptSpecGo rest (pos + 1) seed1

/-- Transcribed from the claim (C4): deterministic in-place transform,
substituting seed 1 for 0, then the per-position step of
`decryptSpecGo`. -/
def decrypt_spec (data : List Nat) (seed : Int) : List Nat :=
  decryptSpecGo data 0 (if seed = 0 then 1 else seed)

/-- Sum of the declared sizes of the first `i` decoded file records. -/
def sumSizes (files : List RAS_file) (i : Nat) : Nat :=
  ((files.take i).map RAS_file.size).sum

/-- The parent-directory obligation of one indexed path: if the path has
a slash, the prefix before the last slash is either the root's empty path
or must be present as a DIRECTORY entry (paths without a slash hang off
the root, which always exists and is a directory). -/
def parentOk (info : RASinfo) (n : List Nat) : Prop :=
  47 ∈ n → (parentPathOf n = [] ∨ dirAt info (parentPathOf n))

/-- The structural invariant of the built index: the bucket array has
exactly `hashBuckets` buckets; every entry sits in the bucket its path
hashes to and has a non-empty path; paths are pairwise distinct; every
entry's parent prefix is present as a directory; the root is the
directory with the empty path. -/
def RasInv (info : RASinfo) : Prop :=
  info.hash.length = info.hashBuckets ∧
  0 < info.hashBuckets ∧
  (∀ i, i < info.hash.length → ∀ e ∈ info.hash.getD i [], ras_hash_string info e.name = i ∧ e.name ≠ []) ∧
  ((entries info).map RASentry.name).Nodup ∧
  (∀ e ∈ entries info, parentOk info e.name) ∧
  info.root.name = [] ∧ info.root.type_ = RasEntryType.directory

/-- `a` is a proper prefix of `n` that is cut at a slash of `n`: the shape
of every ancestor path `ras_hash_ancestors` can materialize for `n`. -/
def sepPrefixOf (n a : List Nat) : Prop :=
  ∃ k, k < n.length ∧ n.getD k 0 = 47 ∧ a = n.take k

def c7f : RASfileinfo := ⟨⟨[1,2,3,4,5,6,7,8,9,10], 2⟩, 2, 5, 0⟩

def c10f : RASfileinfo := ⟨⟨[1,2,3], 0⟩, 5, 9, 7⟩

def dummyFile : RAS_file := ⟨[], 0, 0, 0, 0⟩

def c5blob : List Nat :=
  [97,0, 1,0,0,0, 5,0,0,0, 0,0,0,0, 0,0,0,0] ++ List.replicate 24 0 ++
  [98,0, 2,0,0,0, 7,0,0,0, 0,0,0,0, 0,0,0,0] ++ List.replicate 24 0

def c5files : List RAS_file :=
  [⟨[100,47,97],1,5,0,145⟩, ⟨[100,47,98],2,7,0,150⟩]

/-- C1 -/
def c1blob : List Nat := [120,0] ++ List.replicate 16 9 ++ List.replicate 24 0

def c1short : List Nat := [120,0,1]

def c9eA : RASentry := ⟨[97], RasEntryType.file, 1, 2, 3⟩

def c9eB : RASentry := ⟨[98], RasEntryType.file, 4, 5, 6⟩

def c9info : RASinfo := ⟨1, [[c9eA, c9eB]], ⟨[], RasEntryType.directory, 0, 0, 0⟩, []⟩

/-- The in-place overwrite `ras_load_entries` performs on a duplicate
path: the found entry keeps its name and kind, and takes the new record's
offset and sizes (C lines 347-349). -/
def overwriteSizes (old e : RASentry) : RASentry :=
  { old with
    offset := e.offset
    compressed_size := e.compressed_size
    uncompressed_size := e.uncompressed_size }

def c6eA : RASentry := ⟨[97], RasEntryType.file, 10, 11, 12⟩

def c6f2 : RAS_file := ⟨[97], 2, 7, 0, 200⟩

def c6e2 : RASentry := ⟨[97], RasEntryType.file, 200, 7, 2⟩

def c6info : RASinfo := ⟨1, [[c6eA]], ⟨[], RasEntryType.directory, 0, 0, 0⟩, [([], [[97]])]⟩

def c3dA : RASentry := ⟨[97], RasEntryType.directory, 100, 3, 0⟩

def c3info : RASinfo := ⟨1, [[c3dA]], ⟨[], RasEntryType.directory, 0, 0, 0⟩, [([], [[97]])]⟩

/-- Everything one successful `ras_hash_ancestorsF` call guarantees:
the invariant is preserved, the table shape and root are untouched, no
entry is lost, every added entry is a freshly materialized zero-size
ancestor directory of `name` linked into its parent's child list, the
child lists only grow, and the returned parent path is the prefix of
`name` before its last slash (or the root's empty path), present as a
directory unless it is the root. -/
def AncConc (info : RASinfo) (name : List Nat) (info1 : RASinfo) (pp : List Nat) : Prop :=
  RasInv info1 ∧
  info1.hashBuckets = info.hashBuckets ∧
  info1.hash.length = info.hash.length ∧
  info1.root = info.root ∧
  (∀ x, x ∈ entries info → x ∈ entries info1) ∧
  (∀ x, x ∈ entries info1 → x ∈ entries info ∨
    (x.name.length < name.length ∧ x.type_ = RasEntryType.directory ∧ x.offset = 0 ∧
     x.compressed_size = 0 ∧ x.uncompressed_size = 0 ∧ sepPrefixOf name x.name ∧
     x.name ∈ childLookup info1.children (parentPathOf x.name))) ∧
  (∀ q c, c ∈ childLookup info.children q → c ∈ childLookup info1.children q) ∧
  pp = parentPathOf name ∧
  (pp = [] ∨ dirAt info1 pp)

instance (info : RASinfo) (n : List Nat) : Decidable (hasName info n) :=
  decidable_of_iff (∃ e ∈ entries info, e.name = n) Iff.rfl

instance (info : RASinfo) (n : List Nat) : Decidable (dirAt info n) :=
  decidable_of_iff (∃ e ∈ entries info, e.name = n ∧ e.type_ = RasEntryType.directory) Iff.rfl

instance (info : RASinfo) (n : List Nat) : Decidable (parentOk info n) :=
  decidable_of_iff (47 ∈ n → (parentPathOf n = [] ∨ dirAt info (parentPathOf n))) Iff.rfl

instance (info : RASinfo) : Decidable (RasInv info) :=
  decidable_of_iff (info.hash.length = info.hashBuckets ∧
    0 < info.hashBuckets ∧
    (∀ i, i < info.hash.length → ∀ e ∈ info.hash.getD i [],
      ras_hash_string info e.name = i ∧ e.name ≠ []) ∧
    ((entries info).map RASentry.name).Nodup ∧
    (∀ e ∈ entries info, parentOk info e.name) ∧
    info.root.name = [] ∧ info.root.type_ = RasEntryType.directory) Iff.rfl

def c8info0 : RASinfo := ras_initInfo 1

def c8e0 : RASentry := ⟨[97, 47, 98], RasEntryType.file, 5, 7, 9⟩

def c8res : RASinfo :=
  ⟨1, [[⟨[97, 47, 98], RasEntryType.file, 5, 7, 9⟩, ⟨[97], RasEntryType.directory, 0, 0, 0⟩]],
    ⟨[], RasEntryType.directory, 0, 0, 0⟩, [([], [[97]]), ([97], [[97, 47, 98]])]⟩

-- ----------------------------------------------------------------------
-- Theorems
-- ----------------------------------------------------------------------

theorem xor_mod_256 (a r : Nat) (hr : r < 256) : (a ^^^ r) % 256 = a % 256 ^^^ r := by
  have h256 : (256 : Nat) = 2 ^ 8 := by norm_num
  apply Nat.eq_of_testBit_eq
  intro i
  rw [h256, Nat.testBit_xor, Nat.testBit_mod_two_pow, Nat.testBit_mod_two_pow, Nat.testBit_xor]
  rcases lt_or_ge i 8 with hi | hi
  · simp [hi]
  · have hrbit : r.testBit i = false := Nat.testBit_lt_two_pow (lt_of_lt_of_le hr (by
      calc (256:Nat) = 2 ^ 8 := by norm_num
      _ ≤ 2 ^ i := Nat.pow_le_pow_right (by norm_num) hi))
    simp [Nat.not_lt.mpr hi, hrbit]

theorem rol8_lt (b r : Nat) : rol8 b r < 256 := Nat.mod_lt _ (by norm_num)

set_option maxRecDepth 4096 in
theorem rol8_eq_rotl8_spec (b r : Nat) (hr : r < 5) : rol8 b r = rotl8_spec b r := by
  have key : ∀ b, b < 256 → ∀ r, r < 5 → rol8 b r = rotl8_spec b r := by decide
  have hb : b % 256 < 256 := Nat.mod_lt _ (by norm_num)
  have h1 := key (b % 256) hb r hr
  have e1 : rol8 (b % 256) r = rol8 b r := by
    unfold rol8
    rw [Nat.mod_mod_of_dvd b dvd_rfl]
  have e2 : rotl8_spec (b % 256) r = rotl8_spec b r := by
    unfold rotl8_spec
    rw [Nat.mod_mod_of_dvd b dvd_rfl]
  rw [e1, e2] at h1
  exact h1

theorem byte_step_eq (pos rot s : Nat) (hrot : rot < 256) :
    ((((pos % 256 + 3) * 6) ^^^ rot) + s) % 256 = (((((pos + 3) * 6) % 256) ^^^ rot) + s) % 256 := by
  have hA : ((pos % 256 + 3) * 6) % 256 = ((pos + 3) * 6) % 256 := by omega
  calc (((pos % 256 + 3) * 6 ^^^ rot) + s) % 256
      = (((pos % 256 + 3) * 6 ^^^ rot) % 256 + s % 256) % 256 := by rw [Nat.add_mod]
    _ = ((((pos % 256 + 3) * 6) % 256 ^^^ rot) + s % 256) % 256 := by rw [xor_mod_256 _ _ hrot]
    _ = ((((pos + 3) * 6) % 256 ^^^ rot) + s % 256) % 256 := by rw [hA]
    _ = ((((pos + 3) * 6) % 256 ^^^ rot) + s) % 256 := by
        conv_rhs => rw [Nat.add_mod]
        have hx : ((pos + 3) * 6 % 256 ^^^ rot) < 256 := by
          have h1 : (pos + 3) * 6 % 256 < 2 ^ 8 := Nat.mod_lt _ (by norm_num)
          have h2 : rot < 2 ^ 8 := hrot
          calc ((pos + 3) * 6 % 256 ^^^ rot) < 2 ^ 8 := Nat.xor_lt_two_pow h1 h2
            _ = 256 := by norm_num
        rw [Nat.mod_eq_of_lt hx]

theorem decryptGo_eq (data : List Nat) : ∀ pos seed,
    ras_decryptGo data pos seed = decryptSpecGo data pos seed := by
  induction data with
  | nil => intro pos seed; rfl
  | cons b rest ih =>
    intro pos seed
    simp only [ras_decryptGo, decryptSpecGo]
    rw [← rol8_eq_rotl8_spec b (pos % 5) (Nat.mod_lt _ (by norm_num))]
    rw [ih (pos + 1) (ras_seedStep seed)]
    rw [byte_step_eq pos (rol8 b (pos % 5)) (uns32 (ras_seedStep seed) % 256) (rol8_lt b (pos % 5))]

/-- C4: `ras_decrypt` is deterministic (a pure function of buffer and
seed), substitutes seed 1 for seed 0, and computes, at every position,
exactly the transformation the claim spells out (`decrypt_spec` is that
transcription): rotate left by `pos mod 5`, advance the seed by the
`edx`/`0xab`/`0x763d` recurrence in wrapping 32-bit arithmetic, and set
the byte to `(((pos+3)*6) XOR rotated) + low8(seed)` in wrapping 8-bit
arithmetic. -/
theorem c4_decrypt_matches_spec (data : List Nat) (seed : Int) :
    ras_decrypt data seed = decrypt_spec data seed ∧ ras_decrypt data 0 = ras_decrypt data 1 := by
  constructor
  · unfold ras_decrypt decrypt_spec
    exact decryptGo_eq data 0 (if seed = 0 then 1 else seed)
  · simp [ras_decrypt]

theorem sub32_eq (a b : Nat) (hb : b ≤ a) (ha : a < 2 ^ 32) : sub32 a b = a - b := by
  unfold sub32
  omega

/-- C7: for a ReadView over an entry of size N (with the logical
position within bounds), `RAS_read` clamps the requested length to
`N - curPos` and never transfers more; a read at logical position N
transfers zero bytes and is not an error (the view is returned
unchanged); `RAS_seek` fails `PastEOF` exactly when the target is `≥ N`,
and on success repositions the underlying source to `entry.offset + pos`
and the logical position to `pos`; seeking to `N - 1` and then reading
one byte succeeds. -/
theorem c7_readview_bounds (f : RASfileinfo) (len p : Nat)
    (hsz : f.compressed_size < 2 ^ 32) (hcur : f.curPos ≤ f.compressed_size) :
    (RAS_read f len).1.length ≤ f.compressed_size - f.curPos ∧
    (RAS_read f len).1.length ≤ len ∧
    (RAS_read f len).2.curPos = f.curPos + (RAS_read f len).1.length ∧
    (f.curPos = f.compressed_size → RAS_read f len = ([], f)) ∧
    ((RAS_seek f p).1 = SeekRes.pastEOF ↔ f.compressed_size ≤ p) ∧
    (p < f.compressed_size → (RAS_seek f p).1 = SeekRes.ok →
      (RAS_seek f p).2.io.pos = f.offset + p ∧ (RAS_seek f p).2.curPos = p) ∧
    (1 ≤ f.compressed_size → f.offset + f.compressed_size ≤ f.io.data.length →
      (RAS_seek f (f.compressed_size - 1)).1 = SeekRes.ok ∧
      (RAS_read (RAS_seek f (f.compressed_size - 1)).2 1).1.length = 1) := by
  have hsub : sub32 f.compressed_size f.curPos = f.compressed_size - f.curPos :=
    sub32_eq _ _ hcur hsz
  refine ⟨?_, ?_, ?_, ?_, ?_, ?_, ?_⟩
  · simp only [RAS_read, src_read, hsub]
    split
    all_goals rw [List.length_take]
    all_goals omega
  · simp only [RAS_read, src_read, hsub]
    split
    all_goals rw [List.length_take]
    all_goals omega
  · simp only [RAS_read, src_read, hsub]
    have hb : ∀ L, (((f.io.data.drop f.io.pos).take L).length) ≤ L := by
      intro L; rw [List.length_take]; omega
    split
    · rename_i hlt
      have := hb (f.compressed_size - f.curPos)
      omega
    · rename_i hge
      have := hb len
      omega
  · intro hend
    have hX : sub32 f.compressed_size f.curPos = 0 := by omega
    have hif : (if sub32 f.compressed_size f.curPos < len then sub32 f.compressed_size f.curPos else len) = 0 := by
      rw [hX]; split <;> omega
    have hmod : f.curPos % 2 ^ 32 = f.curPos := by omega
    simp only [RAS_read, src_read, hif, List.take_zero, List.length_nil, Nat.add_zero, hmod]
  · unfold RAS_seek
    split
    · rename_i h; simp [h]
    · rename_i h
      constructor
      · intro hcontra
        exfalso
        revert hcontra
        cases hseek : src_seek f.io (f.offset + p) <;> simp
      · intro hge; omega
  · intro hp hok
    unfold RAS_seek at hok ⊢
    rw [if_neg (by omega)] at hok ⊢
    cases hseek : src_seek f.io (f.offset + p) with
    | none => rw [hseek] at hok; simp at hok
    | some io1 =>
      unfold src_seek at hseek
      split at hseek
      · simp only [Option.some.injEq] at hseek
        subst hseek
        refine ⟨rfl, ?_⟩
        show p % 2 ^ 32 = p
        omega
      · simp at hseek
  · intro h1 hlen
    have hcond : ¬ f.compressed_size ≤ f.compressed_size - 1 := by omega
    have hseekok : src_seek f.io (f.offset + (f.compressed_size - 1)) =
        some { f.io with pos := f.offset + (f.compressed_size - 1) } := by
      unfold src_seek
      rw [if_pos (by omega)]
    unfold RAS_seek
    rw [if_neg hcond, hseekok]
    refine ⟨rfl, ?_⟩
    simp only [RAS_read, src_read]
    have hmod : (f.compressed_size - 1) % 2 ^ 32 = f.compressed_size - 1 := by omega
    simp only [hmod]
    rw [sub32_eq _ _ (by omega) hsz]
    have h1e : f.compressed_size - (f.compressed_size - 1) = 1 := by omega
    rw [h1e]
    rw [if_neg (show ¬ (1:Nat) < 1 by omega)]
    rw [List.length_take]
    have hdl : (f.io.data.drop (f.offset + (f.compressed_size - 1))).length =
        f.io.data.length - (f.offset + (f.compressed_size - 1)) := List.length_drop _ _
    omega

/-- C10: for an in-bounds seek target, when the underlying
byte-source's seek fails, `RAS_seek` reports the failure and leaves the
ReadView — in particular its logical position as returned by
`RAS_tell` — unchanged. -/
theorem c10_seek_fail_preserves_pos (f : RASfileinfo) (p : Nat)
    (hp : p < f.compressed_size) (hfail : src_seek f.io (f.offset + p) = none) :
    RAS_seek f p = (SeekRes.ioFailed, f) ∧ RAS_tell (RAS_seek f p).2 = RAS_tell f := by
  unfold RAS_seek
  rw [if_neg (by omega), hfail]
  exact ⟨rfl, rfl⟩

/-- Witness for C7 at a concrete ReadView of size 5 over a 10-byte
source: seeking to 5 fails `PastEOF`, seeking to 4 succeeds, reading one
byte there succeeds, and a 3-byte read transfers at most 5 bytes. -/
theorem c7_readview_bounds_witness :
    (RAS_seek c7f 5).1 = SeekRes.pastEOF ∧ (RAS_seek c7f (5 - 1)).1 = SeekRes.ok ∧
    (RAS_read (RAS_seek c7f (5 - 1)).2 1).1.length = 1 ∧ (RAS_read c7f 3).1.length ≤ 5 - 0 := by
  have h := c7_readview_bounds c7f 3 5 (by decide) (by decide)
  obtain ⟨h1, _, _, _, h5, _, h7⟩ := h
  have hg := h7 (by decide) (by decide)
  exact ⟨h5.mpr (by decide), hg.1, hg.2, h1⟩

/-- Witness for C10 at a concrete ReadView whose entry offset lies
beyond the end of a 3-byte source: the seek fails and `RAS_tell` is
unchanged. -/
theorem c10_seek_fail_preserves_pos_witness :
    RAS_seek c10f 0 = (SeekRes.ioFailed, c10f) ∧ RAS_tell (RAS_seek c10f 0).2 = RAS_tell c10f :=
  c10_seek_fail_preserves_pos c10f 0 (by decide) rfl

theorem loadFilesAux_offsets (data : List Nat) (dirs : List RAS_dir) :
    ∀ count ptr base files, base < 2 ^ 32 →
      RAS_loadFilesAux data dirs ptr base count = some files →
      ∀ i, i < files.length →
        (files.getD i dummyFile).offset = (base + sumSizes files i) % 2 ^ 32 := by
  intro count
  induction count with
  | zero =>
    intro ptr base files _ h i hi
    simp only [RAS_loadFilesAux, Option.some.injEq] at h
    subst h
    simp at hi
  | succ n ih =>
    intro ptr base files hbase h i hi
    simp only [RAS_loadFilesAux] at h
    split at h
    · split at h
      · exact absurd h (by simp)
      · rename_i dn hdn
        split at h
        · exact absurd h (by simp)
        · rename_i fs hfs
          simp only [Option.some.injEq] at h
          subst h
          cases i with
          | zero =>
            simp [sumSizes]
            omega
          | succ j =>
            simp only [List.getD_cons_succ]
            have hj : j < fs.length := by simpa using hi
            have := ih (scanNul data ptr + 1 + 40)
              ((base + le32at data (scanNul data ptr + 1 + 4)) % 2 ^ 32) fs
              (Nat.mod_lt _ (by norm_num)) hfs j hj
            rw [this]
            have hsum : sumSizes (⟨dn.name ++ (data.drop ptr).take (scanNul data ptr - ptr),
                le32at data (scanNul data ptr + 1),
                le32at data (scanNul data ptr + 1 + 4),
                le32at data (scanNul data ptr + 1 + 12), base⟩ :: fs) (j + 1) =
                le32at data (scanNul data ptr + 1 + 4) + sumSizes fs j := by
              simp [sumSizes]
            rw [hsum]
            omega
    · exact absurd h (by simp)

/-- C5: every file record decoded by `RAS_loadFiles` gets its payload
offset from the running cursor alone — the i-th record's offset equals
`RAS_FULLHEADERLEN + fileInfoLength + dirInfoLength` plus the sum of the
declared sizes of all preceding records (in 32-bit arithmetic, as the
cursor is a `PHYSFS_uint32`); no offset is read from the archive bytes. -/
theorem c5_offsets_sequential (data : List Nat) (dirs : List RAS_dir)
    (filecount fil dil : Nat) (files : List RAS_file)
    (h : RAS_loadFiles data filecount dirs ((RAS_FULLHEADERLEN + fil + dil) % 2 ^ 32) = some files) :
    ∀ i, i < files.length →
      (files.getD i dummyFile).offset = (RAS_FULLHEADERLEN + fil + dil + sumSizes files i) % 2 ^ 32 := by
  intro i hi
  have := loadFilesAux_offsets data dirs filecount 0
    ((RAS_FULLHEADERLEN + fil + dil) % 2 ^ 32) files (Nat.mod_lt _ (by norm_num)) h i hi
  rw [this]
  omega

/-- Witness for C5 at a concrete input: a two-record file blob with
declared sizes 5 and 7 decodes with offsets 145 and 150 for
`fileInfoLength = 84`, `dirInfoLength = 17`. -/
theorem c5_offsets_sequential_witness :
    RAS_loadFiles c5blob 2 [⟨[100,47]⟩] ((RAS_FULLHEADERLEN + 84 + 17) % 2 ^ 32) = some c5files ∧
    (c5files.getD 1 dummyFile).offset = (RAS_FULLHEADERLEN + 84 + 17 + sumSizes c5files 1) % 2 ^ 32 := by
  refine ⟨by decide, ?_⟩
  exact c5_offsets_sequential c5blob [⟨[100,47]⟩] 2 84 17 c5files (by decide) 1 (by decide)

/-- C1: the code evaluated at the claim's failing inputs.  A file
record whose parent-directory index is out of range (here index 9 with
no directories at all), or a declared record count that needs more bytes
than the blob holds, does NOT make decoding fail `CorruptArchive`: the C
code indexes `dirs[f->dir]` and reads the three 32-bit fields with no
bounds check whatsoever, an out-of-bounds access with no defined result
(the model's `none`).  `RAS_loadFiles` even receives `dircount` and
never uses it. -/
theorem c1_loadFiles_out_of_range_is_undefined :
    RAS_loadFiles c1blob 1 [] 44 = none ∧ RAS_loadFiles c1short 1 [⟨[]⟩] 44 = none := by
  exact ⟨by decide, by decide⟩

theorem load_step_err (info : RASinfo) (f : RAS_file) (e : RasErr)
    (h : ras_load_step info f = Except.error e) : e = RasErr.corrupt ∨ e = RasErr.undef := by
  unfold ras_load_step at h
  split at h
  · simp only [Except.error.injEq] at h; exact Or.inr h.symm
  · split at h
    · split at h
      · simp at h
      · dsimp only at h
        split at h
        · simp at h
        · simp at h
    · split at h
      · simp only [Except.error.injEq] at h; exact Or.inl h.symm
      · simp at h

theorem load_entries_no_unsupported (files : List RAS_file) :
    ∀ info, ras_load_entries info files ≠ Except.error RasErr.unsupported := by
  induction files with
  | nil => intro info h; simp [ras_load_entries] at h
  | cons f rest ih =>
    intro info h
    unfold ras_load_entries at h
    split at h
    · rename_i e hstep
      simp only [Except.error.injEq] at h
      rcases load_step_err info f e hstep with h1 | h1 <;> simp [h1] at h
    · exact ih _ h

/-- C2 amended: opening an archive reads the first 4 bytes as a
little-endian unsigned 32-bit value and fails `UnsupportedFormat`
exactly when that value differs from `RAS_SIG = 0x00534152`, which
encodes the bytes R, A, S followed by a NUL byte — not a space
(0x20534152), as the claim states. -/
theorem c2_sig_check_amended (src : List Nat) (h4 : 4 ≤ src.length) :
    (RAS_openArchive src = Except.error RasErr.unsupported ↔ le32 (src.take 4) ≠ RAS_SIG) := by
  have hrb : readBytes src 0 4 = some (src.take 4) := by
    unfold readBytes
    rw [if_pos (by omega)]
    simp
  unfold RAS_openArchive
  rw [hrb]
  simp only []
  split
  · rename_i hne
    simp [hne]
  · rename_i hne
    have heq : ¬ (le32 (src.take 4) ≠ RAS_SIG) := hne
    simp only [heq, iff_false]
    split
    · simp
    split
    · simp
    split
    · simp
    split
    · simp
    split
    · simp
    intro hcontra
    exact load_entries_no_unsupported _ _ hcontra

/-- C2 counterexample: a source whose first four bytes are exactly
R, A, S, space — the value the claim says must be accepted — is rejected
with `UnsupportedFormat`, because `RAS_SIG` is `0x00534152`
(R, A, S, NUL), not `0x20534152`. -/
theorem c2_sig_space_counterexample :
    le32 [82, 65, 83, 32] = 0x20534152 ∧
    RAS_openArchive [82, 65, 83, 32] = Except.error RasErr.unsupported := by
  exact ⟨by decide, rfl⟩

/-- Witness for C2 amended at a concrete input: a source of four zero
bytes fails `UnsupportedFormat`. -/
theorem c2_sig_check_amended_witness :
    RAS_openArchive [0, 0, 0, 0] = Except.error RasErr.unsupported :=
  (c2_sig_check_amended [0, 0, 0, 0] (by decide)).mpr (by decide)

theorem getD_set_self (l : List (List RASentry)) (i : Nat) (b : List RASentry)
    (h : i < l.length) : (l.set i b).getD i [] = b := by
  rw [List.getD_eq_getElem?_getD, List.getElem?_set_self h]
  rfl

theorem getD_set_ne (l : List (List RASentry)) (i j : Nat) (b : List RASentry)
    (h : i ≠ j) : (l.set i b).getD j [] = l.getD j [] := by
  rw [List.getD_eq_getElem?_getD, List.getElem?_set_ne h, ← List.getD_eq_getElem?_getD]

theorem getD_ne_nil_lt (l : List (List RASentry)) (i : Nat) (h : l.getD i [] ≠ []) :
    i < l.length := by
  by_contra hc
  exact h (List.getD_eq_default _ _ (by omega))

theorem flatten_set_perm (l : List (List RASentry)) : ∀ (i : Nat) (b : List RASentry),
    i < l.length → (l.getD i []).Perm b → (l.set i b).flatten.Perm l.flatten := by
  induction l with
  | nil => intro i b h; simp at h
  | cons x xs ih =>
    intro i b h hperm
    cases i with
    | zero =>
      simp only [List.set_cons_zero, List.flatten_cons]
      exact (hperm.symm.append_right xs.flatten)
    | succ j =>
      simp only [List.set_cons_succ, List.flatten_cons]
      exact (ih j b (by simpa using h) hperm).append_left x

theorem flatten_set_cons_perm (l : List (List RASentry)) : ∀ (i : Nat) (a : RASentry),
    i < l.length → (l.set i (a :: l.getD i [])).flatten.Perm (a :: l.flatten) := by
  induction l with
  | nil => intro i a h; simp at h
  | cons x xs ih =>
    intro i a h
    cases i with
    | zero =>
      simp only [List.set_cons_zero, List.flatten_cons, List.getD_cons_zero]
      exact List.Perm.refl _
    | succ j =>
      simp only [List.set_cons_succ, List.flatten_cons, List.getD_cons_succ]
      exact List.Perm.trans ((ih j a (by simpa using h)).append_left x) List.perm_middle

theorem flatten_set_length (l : List (List RASentry)) : ∀ (i : Nat) (b : List RASentry),
    i < l.length →
    ((l.set i b).flatten).length + (l.getD i []).length = l.flatten.length + b.length := by
  induction l with
  | nil => intro i b h; simp at h
  | cons x xs ih =>
    intro i b h
    cases i with
    | zero =>
      simp only [List.set_cons_zero, List.flatten_cons, List.getD_cons_zero, List.length_append]
      omega
    | succ j =>
      simp only [List.set_cons_succ, List.flatten_cons, List.getD_cons_succ, List.length_append]
      have := ih j b (by simpa using h)
      omega

theorem crf_none (bucket : List RASentry) (p : List Nat) :
    chainRemoveFirst bucket p = none → ∀ e ∈ bucket, e.name ≠ p := by
  induction bucket with
  | nil => intro _ e he; simp at he
  | cons x rest ih =>
    intro h e he
    unfold chainRemoveFirst at h
    split at h
    · simp at h
    · rename_i hx
      rcases List.mem_cons.mp he with he1 | he1
      · subst he1; exact hx
      · rcases hcrf : chainRemoveFirst rest p with _ | ⟨f, r⟩
        · exact ih hcrf e he1
        · rw [hcrf] at h; simp at h

theorem crf_some (bucket : List RASentry) (p : List Nat) :
    ∀ e rest, chainRemoveFirst bucket p = some (e, rest) →
      e.name = p ∧ bucket.Perm (e :: rest) ∧ bucket.length = rest.length + 1 ∧ e ∈ bucket := by
  induction bucket with
  | nil => intro e rest h; simp [chainRemoveFirst] at h
  | cons x xs ih =>
    intro e rest h
    unfold chainRemoveFirst at h
    split at h
    · rename_i hx
      simp only [Option.some.injEq, Prod.mk.injEq] at h
      obtain ⟨he, hrest⟩ := h
      subst he; subst hrest
      exact ⟨hx, List.Perm.refl _, by simp, by simp⟩
    · rename_i hx
      rcases hcrf : chainRemoveFirst xs p with _ | ⟨f, r⟩
      · rw [hcrf] at h; simp at h
      · rw [hcrf] at h
        simp only [Option.some.injEq, Prod.mk.injEq] at h
        obtain ⟨rfl, rfl⟩ := h
        obtain ⟨h1, h2, h3, h4⟩ := ih _ _ hcrf
        refine ⟨h1, ?_, by simp [h3], List.mem_cons_of_mem x h4⟩
        exact List.Perm.trans (h2.cons x) (List.Perm.swap f x r)

theorem find_some_spec (info : RASinfo) (p : List Nat) (e : RASentry) (info1 : RASinfo)
    (hp : p ≠ []) (h : ras_find_entry info p = (some e, info1)) :
    ∃ rest, chainRemoveFirst (info.hash.getD (ras_hash_string info p) []) p = some (e, rest) ∧
      info1 = { info with hash := info.hash.set (ras_hash_string info p) (e :: rest) } ∧
      e.name = p := by
  unfold ras_find_entry at h
  rw [if_neg hp] at h
  dsimp only at h
  rcases hcrf : chainRemoveFirst (info.hash.getD (ras_hash_string info p) []) p with _ | ⟨f, r⟩
  · rw [hcrf] at h; simp at h
  · rw [hcrf] at h
    simp only [Prod.mk.injEq, Option.some.injEq] at h
    obtain ⟨rfl, rfl⟩ := h
    exact ⟨r, rfl, rfl, (crf_some _ _ _ _ hcrf).1⟩

theorem find_none_spec (info : RASinfo) (p : List Nat) (info1 : RASinfo)
    (hp : p ≠ []) (h : ras_find_entry info p = (none, info1)) :
    info1 = info ∧ ∀ e ∈ info.hash.getD (ras_hash_string info p) [], e.name ≠ p := by
  unfold ras_find_entry at h
  rw [if_neg hp] at h
  dsimp only at h
  rcases hcrf : chainRemoveFirst (info.hash.getD (ras_hash_string info p) []) p with _ | ⟨f, r⟩
  · rw [hcrf] at h
    simp only [Prod.mk.injEq] at h
    exact ⟨h.2.symm, crf_none _ _ hcrf⟩
  · rw [hcrf] at h; simp at h

theorem stat_state_eq_find (info : RASinfo) (p : List Nat) :
    (RAS_stat info p).2 = (ras_find_entry info p).2 := by
  unfold RAS_stat
  rcases h : ras_find_entry info p with ⟨r, info1⟩
  cases r
  · rfl
  · dsimp only
    split <;> rfl

theorem enumerate_state_eq_find (info : RASinfo) (p : List Nat) :
    (RAS_enumerateFiles info p).2 = (ras_find_entry info p).2 := by
  unfold RAS_enumerateFiles
  rcases h : ras_find_entry info p with ⟨r, info1⟩
  cases r
  · rfl
  · dsimp only
    split <;> rfl

theorem openRead_state_eq_find (info : RASinfo) (src : ByteSource) (p : List Nat) :
    (RAS_openRead info src p).2 = (ras_find_entry info p).2 := by
  unfold RAS_openRead
  rcases h : ras_find_entry info p with ⟨r, info1⟩
  cases r
  · rfl
  · dsimp only
    split
    · rfl
    · rcases hs : src_seek src _ with _ | s <;> rfl

/-- C9: a successful lookup of a non-empty path present in its bucket
moves the found entry to the front of that bucket's chain, keeps the
bucket's entries a permutation of what they were, leaves every other
bucket untouched, and this same state results from a lookup performed by
any of `RAS_stat`, `RAS_enumerateFiles` or `RAS_openRead`. -/
theorem c9_move_to_front (info : RASinfo) (p : List Nat) (e : RASentry) (rest : List RASentry)
    (hp : p ≠ [])
    (hfound : chainRemoveFirst (info.hash.getD (ras_hash_string info p) []) p = some (e, rest)) :
    ras_find_entry info p =
      (some e, { info with hash := info.hash.set (ras_hash_string info p) (e :: rest) }) ∧
    e.name = p ∧
    (info.hash.set (ras_hash_string info p) (e :: rest)).getD (ras_hash_string info p) [] =
      e :: rest ∧
    (info.hash.getD (ras_hash_string info p) []).Perm (e :: rest) ∧
    (∀ j, j ≠ ras_hash_string info p →
      (info.hash.set (ras_hash_string info p) (e :: rest)).getD j [] = info.hash.getD j []) ∧
    (info.hash.set (ras_hash_string info p) (e :: rest)).flatten.Perm info.hash.flatten ∧
    (RAS_stat info p).2 =
      { info with hash := info.hash.set (ras_hash_string info p) (e :: rest) } ∧
    (RAS_enumerateFiles info p).2 =
      { info with hash := info.hash.set (ras_hash_string info p) (e :: rest) } ∧
    ∀ src, (RAS_openRead info src p).2 =
      { info with hash := info.hash.set (ras_hash_string info p) (e :: rest) } := by
  have hfind : ras_find_entry info p =
      (some e, { info with hash := info.hash.set (ras_hash_string info p) (e :: rest) }) := by
    unfold ras_find_entry
    rw [if_neg hp]
    dsimp only
    rw [hfound]
  obtain ⟨hname, hperm, hlen, hmem⟩ := crf_some _ _ _ _ hfound
  have hnil : info.hash.getD (ras_hash_string info p) [] ≠ [] := by
    intro hnil
    rw [hnil] at hfound
    simp [chainRemoveFirst] at hfound
  have hlt : ras_hash_string info p < info.hash.length := getD_ne_nil_lt _ _ hnil
  refine ⟨hfind, hname, getD_set_self _ _ _ hlt, hperm,
    fun j hj => getD_set_ne _ _ _ _ (fun hh => hj hh.symm),
    flatten_set_perm _ _ _ hlt hperm, ?_, ?_, ?_⟩
  · rw [stat_state_eq_find, hfind]
  · rw [enumerate_state_eq_find, hfind]
  · intro src
    rw [openRead_state_eq_find, hfind]

/-- Witness for C9 at a concrete two-entry bucket: looking up the
rear entry moves it to the front, permuting the chain. -/
theorem c9_move_to_front_witness :
    ras_find_entry c9info [98] =
      (some c9eB, { c9info with hash := c9info.hash.set (ras_hash_string c9info [98]) (c9eB :: [c9eA]) }) ∧
    (c9info.hash.getD (ras_hash_string c9info [98]) []).Perm (c9eB :: [c9eA]) := by
  have h := c9_move_to_front c9info [98] c9eB [c9eA] (by decide) (by decide)
  exact ⟨h.1, h.2.2.2.1⟩

theorem load_step_found (info : RASinfo) (f : RAS_file) (e eF : RASentry) (rest : List RASentry)
    (hload : ras_load_entry f = some e) (hne : e.name ≠ [])
    (hcrf : chainRemoveFirst (info.hash.getD (ras_hash_string info e.name) []) e.name =
      some (eF, rest)) :
    ras_load_step info f = Except.ok { info with
      hash := info.hash.set (ras_hash_string info e.name) (overwriteSizes eF e :: rest) } := by
  have hfind : ras_find_entry info e.name =
      (some eF, { info with hash := info.hash.set (ras_hash_string info e.name) (eF :: rest) }) := by
    unfold ras_find_entry
    rw [if_neg hne]
    dsimp only
    rw [hcrf]
  have hnil : info.hash.getD (ras_hash_string info e.name) [] ≠ [] := by
    intro hnil
    rw [hnil] at hcrf
    simp [chainRemoveFirst] at hcrf
  have hlt : ras_hash_string info e.name < info.hash.length := getD_ne_nil_lt _ _ hnil
  have hbucket : (info.hash.set (ras_hash_string info e.name) (eF :: rest)).getD
      (ras_hash_string info e.name) [] = eF :: rest := getD_set_self _ _ _ hlt
  unfold ras_load_step
  rw [hload]
  dsimp only
  rw [hfind]
  dsimp only
  rw [if_neg hne]
  have hhs : ras_hash_string { info with
      hash := info.hash.set (ras_hash_string info e.name) (eF :: rest) } e.name =
      ras_hash_string info e.name := rfl
  rw [hhs, hbucket]
  dsimp only
  rw [List.set_set]
  rfl

theorem load_step_found_find (info : RASinfo) (e eF : RASentry) (rest : List RASentry)
    (hne : e.name ≠ []) (hename : eF.name = e.name)
    (hlt : ras_hash_string info e.name < info.hash.length) :
    (ras_find_entry ({ info with
        hash := info.hash.set (ras_hash_string info e.name) (overwriteSizes eF e :: rest) } : RASinfo)
      e.name).1 = some (overwriteSizes eF e) := by
  unfold ras_find_entry
  rw [if_neg hne]
  dsimp only
  have hhs : ras_hash_string { info with
      hash := info.hash.set (ras_hash_string info e.name) (overwriteSizes eF e :: rest) } e.name =
      ras_hash_string info e.name := rfl
  rw [hhs, getD_set_self _ _ _ hlt]
  have hname : (overwriteSizes eF e).name = e.name := hename
  unfold chainRemoveFirst
  rw [if_pos hname]

/-- C6: when a decoded record's path is already present in the index
and the existing entry's kind matches, `ras_load_entries` updates the
existing entry's offset and sizes in place: the step succeeds, the
updated entry sits exactly where the lookup left the old one (the front
of its bucket), every chain holds the same paths in the same order as
right after the lookup (no new node, chain position unchanged by the
update itself), the total entry count is unchanged, and the path now
resolves to the second record's offset and size. -/
theorem c6_last_write_wins (info : RASinfo) (f : RAS_file) (e eF : RASentry) (info1 : RASinfo)
    (hload : ras_load_entry f = some e) (hne : e.name ≠ [])
    (hfind : ras_find_entry info e.name = (some eF, info1))
    (_hkind : eF.type_ = e.type_) :
    ∃ info2, ras_load_step info f = Except.ok info2 ∧
      info2.hash.getD (ras_hash_string info e.name) [] =
        overwriteSizes eF e :: (info1.hash.getD (ras_hash_string info e.name) []).tail ∧
      (∀ j, (info2.hash.getD j []).map RASentry.name =
        (info1.hash.getD j []).map RASentry.name) ∧
      (entries info2).length = (entries info).length ∧
      (ras_find_entry info2 e.name).1 = some (overwriteSizes eF e) := by
  obtain ⟨rest, hcrf, hinfo1, hename⟩ := find_some_spec info e.name eF info1 hne hfind
  have hnil : info.hash.getD (ras_hash_string info e.name) [] ≠ [] := by
    intro hnil
    rw [hnil] at hcrf
    simp [chainRemoveFirst] at hcrf
  have hlt : ras_hash_string info e.name < info.hash.length := getD_ne_nil_lt _ _ hnil
  have hstep := load_step_found info f e eF rest hload hne hcrf
  obtain ⟨hname2, hperm, hlen, hmem⟩ := crf_some _ _ _ _ hcrf
  refine ⟨_, hstep, ?_, ?_, ?_, ?_⟩
  · subst hinfo1
    dsimp only
    rw [getD_set_self _ _ _ hlt, getD_set_self _ _ _ hlt]
    rfl
  · intro j
    subst hinfo1
    dsimp only
    rcases eq_or_ne j (ras_hash_string info e.name) with rfl | hj
    · rw [getD_set_self _ _ _ hlt, getD_set_self _ _ _ hlt]
      rfl
    · rw [getD_set_ne _ _ _ _ (fun hh => hj hh.symm), getD_set_ne _ _ _ _ (fun hh => hj hh.symm)]
  · dsimp only [entries]
    have h1 := flatten_set_length info.hash (ras_hash_string info e.name)
      (overwriteSizes eF e :: rest) hlt
    have h2 : (info.hash.getD (ras_hash_string info e.name) []).length = rest.length + 1 := hlen
    simp only [List.length_cons] at h1 ⊢
    omega
  · exact load_step_found_find info e eF rest hne hename hlt

/-- C3 amended: when a record's path is already present in the index,
`ras_load_entries` never fails `CorruptArchive` — it updates the found
entry's offset and sizes in place regardless of whether the kinds agree,
and the entry keeps its original kind (the C code has no kind check in
its duplicate branch; `PHYSFS_ERR_CORRUPT` arises only in
`ras_hash_ancestors`, for an ancestor path held by a non-directory). -/
theorem c3_duplicate_path_updates_regardless_of_kind (info : RASinfo) (f : RAS_file)
    (e eF : RASentry) (info1 : RASinfo)
    (hload : ras_load_entry f = some e) (hne : e.name ≠ [])
    (hfind : ras_find_entry info e.name = (some eF, info1)) :
    ∃ info2, ras_load_step info f = Except.ok info2 ∧
      (ras_find_entry info2 e.name).1 = some (overwriteSizes eF e) ∧
      (overwriteSizes eF e).type_ = eF.type_ ∧
      (overwriteSizes eF e).offset = e.offset ∧
      (overwriteSizes eF e).compressed_size = e.compressed_size := by
  obtain ⟨rest, hcrf, hinfo1, hename⟩ := find_some_spec info e.name eF info1 hne hfind
  have hnil : info.hash.getD (ras_hash_string info e.name) [] ≠ [] := by
    intro hnil
    rw [hnil] at hcrf
    simp [chainRemoveFirst] at hcrf
  have hlt : ras_hash_string info e.name < info.hash.length := getD_ne_nil_lt _ _ hnil
  exact ⟨_, load_step_found info f e eF rest hload hne hcrf,
    load_step_found_find info e eF rest hne hename hlt, rfl, rfl, rfl⟩

/-- C3 counterexample: a directory-marker record for path `a`
followed by a file record for the same path `a` — kinds conflict, yet
`ras_load_entries` succeeds (no `CorruptArchive`) and the existing entry
keeps kind DIRECTORY while taking the second record's offset and
sizes. -/
theorem c3_kind_conflict_counterexample :
    ras_load_entry ⟨[97, 47], 0, 3, 0, 100⟩ = some ⟨[97], RasEntryType.directory, 100, 3, 0⟩ ∧
    ras_load_entry ⟨[97], 1, 7, 0, 200⟩ = some ⟨[97], RasEntryType.file, 200, 7, 1⟩ ∧
    ras_load_entries (ras_initInfo 2) [⟨[97, 47], 0, 3, 0, 100⟩, ⟨[97], 1, 7, 0, 200⟩] =
      Except.ok ⟨1, [[⟨[97], RasEntryType.directory, 200, 7, 1⟩]],
        ⟨[], RasEntryType.directory, 0, 0, 0⟩, [([], [[97]])]⟩ := by
  exact ⟨by decide, by decide, rfl⟩

/-- Witness for C6 at a concrete input: a duplicate file record for
path `a` leaves one entry holding the second record's offset and
sizes. -/
theorem c6_last_write_wins_witness :
    ∃ info2, ras_load_step c6info c6f2 = Except.ok info2 ∧
      (ras_find_entry info2 [97]).1 = some (overwriteSizes c6eA c6e2) := by
  obtain ⟨info2, hstep, _, _, _, hf⟩ :=
    c6_last_write_wins c6info c6f2 c6e2 c6eA c6info (by decide) (by decide) (by decide) (by decide)
  exact ⟨info2, hstep, hf⟩

/-- Witness for C3 amended at a concrete input: a file record for
path `a` hitting an existing DIRECTORY entry updates it in place and
keeps the directory kind. -/
theorem c3_duplicate_path_updates_regardless_of_kind_witness :
    ∃ info2, ras_load_step c3info c6f2 = Except.ok info2 ∧
      (ras_find_entry info2 [97]).1 = some (overwriteSizes c3dA c6e2) ∧
      (overwriteSizes c3dA c6e2).type_ = RasEntryType.directory := by
  obtain ⟨info2, hstep, hf, htype, _, _⟩ :=
    c3_duplicate_path_updates_regardless_of_kind c3info c6f2 c6e2 c3dA c3info
      (by decide) (by decide) (by decide)
  exact ⟨info2, hstep, hf, htype⟩

theorem lastIdxOf_lt (l : List Nat) (c : Nat) : ∀ i, lastIdxOf l c = some i → i < l.length := by
  induction l with
  | nil => intro i h; simp [lastIdxOf] at h
  | cons x xs ih =>
    intro i h
    unfold lastIdxOf at h
    rcases hx : lastIdxOf xs c with _ | j
    · simp only [hx] at h
      split at h
      · simp only [Option.some.injEq] at h
        subst h
        simp
      · simp at h
    · simp only [hx, Option.some.injEq] at h
      subst h
      have := ih j hx
      simp only [List.length_cons]
      omega

theorem lastIdxOf_getD (l : List Nat) (c : Nat) : ∀ i, lastIdxOf l c = some i →
    l.getD i 0 = c := by
  induction l with
  | nil => intro i h; simp [lastIdxOf] at h
  | cons x xs ih =>
    intro i h
    unfold lastIdxOf at h
    rcases hx : lastIdxOf xs c with _ | j
    · simp only [hx] at h
      split at h
      · rename_i hxc
        simp only [Option.some.injEq] at h
        subst h
        simpa using hxc
      · simp at h
    · simp only [hx, Option.some.injEq] at h
      subst h
      simpa using ih j hx

theorem lastIdxOf_none (l : List Nat) (c : Nat) (h : lastIdxOf l c = none) : c ∉ l := by
  induction l with
  | nil => simp
  | cons x xs ih =>
    unfold lastIdxOf at h
    rcases hx : lastIdxOf xs c with _ | j
    · simp only [hx] at h
      split at h
      · simp at h
      · rename_i hxc
        intro hm
        rcases List.mem_cons.mp hm with rfl | hm2
        · exact hxc rfl
        · exact ih hx hm2
    · simp only [hx] at h
      simp at h

theorem lastIdxOf_mem (l : List Nat) (c : Nat) (h : c ∈ l) : ∃ i, lastIdxOf l c = some i := by
  rcases hx : lastIdxOf l c with _ | j
  · exact absurd h (lastIdxOf_none l c hx)
  · exact ⟨j, rfl⟩

theorem mem_getD_flatten (l : List (List RASentry)) (i : Nat) (x : RASentry)
    (h : x ∈ l.getD i []) : x ∈ l.flatten := by
  rcases lt_or_ge i l.length with hi | hi
  · rw [List.getD_eq_getElem _ _ hi] at h
    exact List.mem_flatten.mpr ⟨l[i], List.getElem_mem hi, h⟩
  · rw [List.getD_eq_default _ _ hi] at h
    simp at h

theorem hasName_in_bucket (info : RASinfo) (p : List Nat) (hInv : RasInv info)
    (h : hasName info p) :
    ∃ x ∈ info.hash.getD (ras_hash_string info p) [], x.name = p := by
  obtain ⟨hlen, hpos, hplaced, _, _, _⟩ := hInv
  obtain ⟨x, hx, hname⟩ := h
  obtain ⟨b, hb, hxb⟩ := List.mem_flatten.mp hx
  obtain ⟨i, hi, hbi⟩ := List.mem_iff_getElem.mp hb
  have hget : info.hash.getD i [] = b := by rw [List.getD_eq_getElem _ _ hi, hbi]
  have hx2 : x ∈ info.hash.getD i [] := by rw [hget]; exact hxb
  have := (hplaced i hi x hx2).1
  rw [hname] at this
  rw [this]
  exact ⟨x, hx2, hname⟩

theorem crf_none_not_hasName (info : RASinfo) (p : List Nat) (hInv : RasInv info)
    (hcrf : chainRemoveFirst (info.hash.getD (ras_hash_string info p) []) p = none) :
    ¬ hasName info p := by
  intro h
  obtain ⟨x, hx, hname⟩ := hasName_in_bucket info p hInv h
  exact crf_none _ _ hcrf x hx hname

theorem name_unique (l : List RASentry) (h : (l.map RASentry.name).Nodup) :
    ∀ x ∈ l, ∀ y ∈ l, x.name = y.name → x = y := by
  induction l with
  | nil => intro x hx; simp at hx
  | cons a t ih =>
    simp only [List.map_cons, List.nodup_cons] at h
    obtain ⟨hna, hnt⟩ := h
    intro x hx y hy hxy
    rcases List.mem_cons.mp hx with rfl | hx2
    · rcases List.mem_cons.mp hy with rfl | hy2
      · rfl
      · exact absurd (List.mem_map.mpr ⟨y, hy2, hxy.symm⟩) hna
    · rcases List.mem_cons.mp hy with rfl | hy2
      · exact absurd (List.mem_map.mpr ⟨x, hx2, hxy⟩) hna
      · exact ih hnt x hx2 y hy2 hxy

theorem dirAt_of_perm (info info2 : RASinfo) (q : List Nat)
    (hperm : (entries info2).Perm (entries info)) (h : dirAt info q) : dirAt info2 q := by
  obtain ⟨x, hx, h1, h2⟩ := h
  exact ⟨x, hperm.mem_iff.mpr hx, h1, h2⟩

theorem childLookup_childAdd_self (cs : List (List Nat × List (List Nat))) (p c : List Nat) :
    c ∈ childLookup (childAdd cs p c) p := by
  induction cs with
  | nil => simp [childAdd, childLookup]
  | cons x rest ih =>
    rcases x with ⟨q, l⟩
    unfold childAdd
    split
    · rename_i hq
      unfold childLookup
      rw [if_pos hq]
      simp
    · rename_i hq
      unfold childLookup
      rw [if_neg hq]
      exact ih

theorem childLookup_childAdd_mono (cs : List (List Nat × List (List Nat))) (p c q x : List Nat)
    (h : x ∈ childLookup cs q) : x ∈ childLookup (childAdd cs p c) q := by
  induction cs with
  | nil => simp [childLookup] at h
  | cons y rest ih =>
    rcases y with ⟨r, l⟩
    unfold childAdd
    split
    · rename_i hr
      unfold childLookup at h ⊢
      split
      · rename_i hrq
        rw [if_pos hrq] at h
        exact List.mem_cons_of_mem _ h
      · rename_i hrq
        rw [if_neg hrq] at h
        exact h
    · rename_i hr
      unfold childLookup at h ⊢
      split
      · rename_i hrq
        rw [if_pos hrq] at h
        exact h
      · rename_i hrq
        rw [if_neg hrq] at h
        exact ih h

theorem ras_hash_string_congr (info info2 : RASinfo) (h : info2.hashBuckets = info.hashBuckets)
    (n : List Nat) : ras_hash_string info2 n = ras_hash_string info n := by
  unfold ras_hash_string
  rw [h]

theorem mtf_inv (info : RASinfo) (p : List Nat) (e : RASentry) (rest : List RASentry)
    (hInv : RasInv info)
    (hcrf : chainRemoveFirst (info.hash.getD (ras_hash_string info p) []) p = some (e, rest)) :
    RasInv { info with hash := info.hash.set (ras_hash_string info p) (e :: rest) } ∧
    (entries { info with hash := info.hash.set (ras_hash_string info p) (e :: rest) }).Perm
      (entries info) := by
  obtain ⟨hname, hperm, hlen2, hmem⟩ := crf_some _ _ _ _ hcrf
  have hnil : info.hash.getD (ras_hash_string info p) [] ≠ [] := by
    intro hnil
    rw [hnil] at hcrf
    simp [chainRemoveFirst] at hcrf
  have hlt : ras_hash_string info p < info.hash.length := getD_ne_nil_lt _ _ hnil
  obtain ⟨h1, h2, h3, h4, h5, h6, h7⟩ := hInv
  have hflat : (entries { info with
      hash := info.hash.set (ras_hash_string info p) (e :: rest) }).Perm (entries info) :=
    flatten_set_perm _ _ _ hlt hperm
  refine ⟨⟨?_, ?_, ?_, ?_, ?_, ?_, ?_⟩, hflat⟩
  · simpa [List.length_set] using h1
  · exact h2
  · intro i hi x hxi
    simp only [List.length_set] at hi
    rcases eq_or_ne i (ras_hash_string info p) with rfl | hne
    · rw [getD_set_self _ _ _ hlt] at hxi
      have hxb : x ∈ info.hash.getD (ras_hash_string info p) [] := hperm.mem_iff.mpr hxi
      exact h3 _ hlt x hxb
    · rw [getD_set_ne _ _ _ _ (fun hh => hne hh.symm)] at hxi
      exact h3 i hi x hxi
  · exact (hflat.map RASentry.name).nodup_iff.mpr h4
  · intro x hx
    have hx2 : x ∈ entries info := hflat.mem_iff.mp hx
    have := h5 x hx2
    intro hsep
    rcases this hsep with hl | hr
    · exact Or.inl hl
    · exact Or.inr (dirAt_of_perm _ _ _ hflat hr)
  · exact h6
  · exact h7

theorem insertEntry_spec (info : RASinfo) (e : RASentry) (pp : List Nat)
    (hInv : RasInv info) (hne : e.name ≠ []) (habsent : ¬ hasName info e.name)
    (hpp : pp = parentPathOf e.name) (hparent : pp = [] ∨ dirAt info pp) :
    RasInv (insertEntry info e pp) ∧
    (insertEntry info e pp).hashBuckets = info.hashBuckets ∧
    (insertEntry info e pp).hash.length = info.hash.length ∧
    (insertEntry info e pp).root = info.root ∧
    (∀ x, x ∈ entries info → x ∈ entries (insertEntry info e pp)) ∧
    (∀ x, x ∈ entries (insertEntry info e pp) → x ∈ entries info ∨ x = e) ∧
    (∀ q c, c ∈ childLookup info.children q → c ∈ childLookup (insertEntry info e pp).children q) ∧
    e ∈ entries (insertEntry info e pp) ∧
    e.name ∈ childLookup (insertEntry info e pp).children pp := by
  obtain ⟨h1, h2, h3, h4, h5, h6, h7⟩ := hInv
  have hlt : ras_hash_string info e.name < info.hash.length := by
    rw [h1]
    exact Nat.mod_lt _ h2
  have hflat : (entries (insertEntry info e pp)).Perm (e :: entries info) := by
    unfold insertEntry entries
    exact flatten_set_cons_perm _ _ _ hlt
  refine ⟨⟨?_, ?_, ?_, ?_, ?_, ?_, ?_⟩, rfl, by simp [insertEntry, List.length_set], rfl,
    ?_, ?_, ?_, ?_, ?_⟩
  · simp [insertEntry, List.length_set, h1]
  · exact h2
  · intro i hi x hxi
    simp only [insertEntry, List.length_set] at hi hxi
    rcases eq_or_ne i (ras_hash_string info e.name) with rfl | hne2
    · rw [getD_set_self _ _ _ hlt] at hxi
      rcases List.mem_cons.mp hxi with rfl | hx2
      · exact ⟨rfl, hne⟩
      · exact h3 _ hlt x hx2
    · rw [getD_set_ne _ _ _ _ (fun hh => hne2 hh.symm)] at hxi
      exact h3 i hi x hxi
  · rw [(hflat.map RASentry.name).nodup_iff]
    simp only [List.map_cons, List.nodup_cons]
    refine ⟨?_, h4⟩
    intro hmem
    obtain ⟨x, hx, hxn⟩ := List.mem_map.mp hmem
    exact habsent ⟨x, hx, hxn⟩
  · intro x hx
    rcases List.mem_cons.mp (hflat.mem_iff.mp hx) with rfl | hx2
    all_goals intro hsep
    · subst hpp
      rcases hparent with hl | hr
      · exact Or.inl hl
      · refine Or.inr ?_
        obtain ⟨d, hd, hdn, hdt⟩ := hr
        exact ⟨d, hflat.mem_iff.mpr (List.mem_cons_of_mem _ hd), hdn, hdt⟩
    · rcases h5 x hx2 hsep with hl | hr
      · exact Or.inl hl
      · refine Or.inr ?_
        obtain ⟨d, hd, hdn, hdt⟩ := hr
        exact ⟨d, hflat.mem_iff.mpr (List.mem_cons_of_mem _ hd), hdn, hdt⟩
  · exact h6
  · exact h7
  · intro x hx
    exact hflat.mem_iff.mpr (List.mem_cons_of_mem _ hx)
  · intro x hx
    rcases List.mem_cons.mp (hflat.mem_iff.mp hx) with rfl | hx2
    · exact Or.inr rfl
    · exact Or.inl hx2
  · intro q c hc
    exact childLookup_childAdd_mono _ _ _ _ _ hc
  · exact hflat.mem_iff.mpr (List.mem_cons_self _ _)
  · exact childLookup_childAdd_self _ _ _

theorem sepPrefixOf_take (n a : List Nat) (i : Nat)
    (h : sepPrefixOf (n.take i) a) : sepPrefixOf n a := by
  obtain ⟨k, hk, hsep, ha⟩ := h
  rw [List.length_take] at hk
  have hki : k < i := lt_of_lt_of_le hk (min_le_left _ _)
  have hkn : k < n.length := lt_of_lt_of_le hk (min_le_right _ _)
  refine ⟨k, hkn, ?_, ?_⟩
  · rw [← hsep, List.getD_eq_getElem?_getD, List.getD_eq_getElem?_getD,
      List.getElem?_take, if_pos hki]
  · rw [ha, List.take_take]
    congr 1
    omega

theorem find_none_not_hasName (info : RASinfo) (p : List Nat) (infoF : RASinfo)
    (hInv : RasInv info) (hp : p ≠ []) (h : ras_find_entry info p = (none, infoF)) :
    infoF = info ∧ ¬ hasName info p := by
  obtain ⟨heq, hbucket⟩ := find_none_spec info p infoF hp h
  refine ⟨heq, fun hx => ?_⟩
  obtain ⟨x, hx2, hn⟩ := hasName_in_bucket info p hInv hx
  exact hbucket x hx2 hn

theorem ancF_spec (fuel : Nat) : ∀ (info : RASinfo) (name : List Nat) (info1 : RASinfo)
    (pp : List Nat), RasInv info → ras_hash_ancestorsF fuel info name = some (info1, pp) →
    AncConc info name info1 pp := by
  induction fuel with
  | zero =>
    intro info name info1 pp _ h
    simp [ras_hash_ancestorsF] at h
  | succ n ih =>
    intro info name info1 pp hInv h
    unfold ras_hash_ancestorsF at h
    rcases hidx : lastIdxOf name 47 with _ | i
    · simp only [hidx, Option.some.injEq, Prod.mk.injEq] at h
      obtain ⟨rfl, rfl⟩ := h
      refine ⟨hInv, rfl, rfl, rfl, fun x hx => hx, fun x hx => Or.inl hx,
        fun q c hc => hc, ?_, Or.inl rfl⟩
      unfold parentPathOf
      rw [hidx]
    · simp only [hidx] at h
      rcases hfind : ras_find_entry info (name.take i) with ⟨r, infoF⟩
      rw [hfind] at h
      have hilt : i < name.length := lastIdxOf_lt name 47 i hidx
      have hppn : parentPathOf name = name.take i := by
        unfold parentPathOf
        rw [hidx]
      cases r with
      | some f =>
        dsimp only at h
        split at h
        · rename_i hdir
          simp only [Option.some.injEq, Prod.mk.injEq] at h
          obtain ⟨rfl, rfl⟩ := h
          rcases eq_or_ne (name.take i) [] with hdn | hdn
          · rw [hdn] at hfind
            have hroot : ras_find_entry info [] = (some info.root, info) := rfl
            rw [hroot] at hfind
            simp only [Prod.mk.injEq, Option.some.injEq] at hfind
            obtain ⟨rfl, rfl⟩ := hfind
            exact ⟨hInv, rfl, rfl, rfl, fun x hx => hx, fun x hx => Or.inl hx,
              fun q c hc => hc, by rw [hppn, hdn], Or.inl hdn⟩
          · obtain ⟨rest, hcrf, hinfoF, hfname⟩ :=
              find_some_spec info (name.take i) f infoF hdn hfind
            have hnil : info.hash.getD (ras_hash_string info (name.take i)) [] ≠ [] := by
              intro hnil
              rw [hnil] at hcrf
              simp [chainRemoveFirst] at hcrf
            have hlt := getD_ne_nil_lt _ _ hnil
            obtain ⟨hInvF, hpermF⟩ := mtf_inv info (name.take i) f rest hInv hcrf
            rw [← hinfoF] at hInvF hpermF
            refine ⟨hInvF, by (rw [hinfoF]), by (rw [hinfoF]; simp [List.length_set]),
              by (rw [hinfoF]), fun x hx => hpermF.mem_iff.mpr hx,
              fun x hx => Or.inl (hpermF.mem_iff.mp hx),
              fun q c hc => by (rw [hinfoF]; exact hc), hppn.symm, ?_⟩
            refine Or.inr ⟨f, ?_, hfname, hdir⟩
            rw [hinfoF]
            apply mem_getD_flatten _ (ras_hash_string info (name.take i))
            rw [getD_set_self _ _ _ hlt]
            simp
        · simp at h
      | none =>
        have hdn : name.take i ≠ [] := by
          intro h0
          rw [h0] at hfind
          have hroot : ras_find_entry info [] = (some info.root, info) := rfl
          rw [hroot] at hfind
          simp at hfind
        obtain ⟨heqF, habsent⟩ := find_none_not_hasName info (name.take i) infoF hInv hdn hfind
        dsimp only at h
        rw [heqF] at h
        rcases hrec : ras_hash_ancestorsF n info (name.take i) with _ | ⟨info2, pp2⟩
        · rw [hrec] at h
          simp at h
        · rw [hrec] at h
          simp only [Option.some.injEq, Prod.mk.injEq] at h
          obtain ⟨rfl, rfl⟩ := h
          obtain ⟨hI1, hI2, hI3, hI4, hI5, hI6, hI7, hI8, hI9⟩ := ih info (name.take i) info2 pp2 hInv hrec
          have habsent2 : ¬ hasName info2 (name.take i) := by
            rintro ⟨x, hx, hxn⟩
            rcases hI6 x hx with hold | ⟨hlen2, _⟩
            · exact habsent ⟨x, hold, hxn⟩
            · rw [hxn] at hlen2
              exact lt_irrefl _ hlen2
          have hd : (mkDirEntry (name.take i)).name = name.take i := rfl
          obtain ⟨hS1, hS2, hS3, hS4, hS5, hS6, hS7, hS8, hS9⟩ :=
            insertEntry_spec info2 (mkDirEntry (name.take i)) pp2 hI1 hdn habsent2 hI8 hI9
          have htakelen : (name.take i).length = i := by
            rw [List.length_take]
            omega
          refine ⟨hS1, hS2.trans hI2, hS3.trans hI3, hS4.trans hI4,
            fun x hx => hS5 x (hI5 x hx), ?_, fun q c hc => hS7 q c (hI7 q c hc),
            hppn.symm, ?_⟩
          · intro x hx
            rcases hS6 x hx with hx2 | rfl
            · rcases hI6 x hx2 with hold | ⟨hlen2, hdir2, hoff2, hcs2, hus2, hsp2, hch2⟩
              · exact Or.inl hold
              · refine Or.inr ⟨by omega, hdir2, hoff2, hcs2, hus2,
                  sepPrefixOf_take name x.name i hsp2, hS7 _ _ hch2⟩
            · refine Or.inr ⟨?_, rfl, rfl, rfl, rfl, ?_, ?_⟩
              · rw [hd, htakelen]
                omega
              · exact ⟨i, hilt, lastIdxOf_getD name 47 i hidx, rfl⟩
              · rw [hd, ← hI8]
                exact hS9
          · refine Or.inr ⟨mkDirEntry (name.take i), hS8, rfl, rfl⟩

/-- C8: inserting an entry with `ras_hash_entry` preserves the index
invariant; afterwards the entry is in the hash table and linked into its
parent's child list, no existing entry is lost, every other new entry is
a zero-size DIRECTORY materialized for a missing ancestor (a prefix of
the inserted path cut at a slash) linked into both the hash table and
its own parent's child list, and every indexed path with a slash has
either the root or exactly one DIRECTORY entry as the parent named by
the prefix before its last slash. -/
theorem c8_ancestors_invariant (info : RASinfo) (e : RASentry) (info1 : RASinfo)
    (hInv : RasInv info) (hne : e.name ≠ []) (habsent : ¬ hasName info e.name)
    (h : ras_hash_entry info e = some info1) :
    RasInv info1 ∧
    e ∈ entries info1 ∧
    e.name ∈ childLookup info1.children (parentPathOf e.name) ∧
    (∀ x, x ∈ entries info → x ∈ entries info1) ∧
    (∀ x, x ∈ entries info1 → x ∈ entries info ∨ x = e ∨
      (x.type_ = RasEntryType.directory ∧ x.offset = 0 ∧ x.compressed_size = 0 ∧
       sepPrefixOf e.name x.name ∧ x.name ∈ childLookup info1.children (parentPathOf x.name))) ∧
    (∀ x, x ∈ entries info1 → 47 ∈ x.name →
      parentPathOf x.name = [] ∨
      ∃ d, d ∈ entries info1 ∧ d.name = parentPathOf x.name ∧
        d.type_ = RasEntryType.directory ∧
        ∀ d2, d2 ∈ entries info1 → d2.name = parentPathOf x.name → d2 = d) := by
  unfold ras_hash_entry at h
  rcases hanc : ras_hash_ancestorsF (e.name.length + 1) info e.name with _ | ⟨infoA, pp⟩
  · rw [hanc] at h
    simp at h
  · rw [hanc] at h
    simp only [Option.some.injEq] at h
    subst h
    obtain ⟨hA1, hA2, hA3, hA4, hA5, hA6, hA7, hA8, hA9⟩ :=
      ancF_spec (e.name.length + 1) info e.name infoA pp hInv hanc
    have habsentA : ¬ hasName infoA e.name := by
      rintro ⟨x, hx, hxn⟩
      rcases hA6 x hx with hold | ⟨hlen, _⟩
      · exact habsent ⟨x, hold, hxn⟩
      · rw [hxn] at hlen
        exact lt_irrefl _ hlen
    obtain ⟨hS1, hS2, hS3, hS4, hS5, hS6, hS7, hS8, hS9⟩ :=
      insertEntry_spec infoA e pp hA1 hne habsentA hA8 hA9
    refine ⟨hS1, hS8, ?_, fun x hx => hS5 x (hA5 x hx), ?_, ?_⟩
    · rw [← hA8]
      exact hS9
    · intro x hx
      rcases hS6 x hx with hx2 | rfl
      · rcases hA6 x hx2 with hold | ⟨_, hdir2, hoff2, hcs2, _, hsp2, hch2⟩
        · exact Or.inl hold
        · exact Or.inr (Or.inr ⟨hdir2, hoff2, hcs2, hsp2, hS7 _ _ hch2⟩)
      · exact Or.inr (Or.inl rfl)
    · intro x hx hsep
      obtain ⟨_, _, _, hnodup, hparents, _, _⟩ := hS1
      rcases hparents x hx hsep with hl | hr
      · exact Or.inl hl
      · obtain ⟨d, hd, hdn, hdt⟩ := hr
        refine Or.inr ⟨d, hd, hdn, hdt, ?_⟩
        intro d2 hd2 hd2n
        exact name_unique _ hnodup d2 hd2 d hd (by rw [hd2n, hdn])

/-- Witness for C8 at a concrete input: inserting `a/b` into an empty
index materializes directory `a`, preserves the invariant, and links
`a/b` under `a`. -/
theorem c8_ancestors_invariant_witness :
    RasInv c8res ∧ c8e0 ∈ entries c8res ∧
    [97, 47, 98] ∈ childLookup c8res.children (parentPathOf [97, 47, 98]) := by
  have h := c8_ancestors_invariant c8info0 c8e0 c8res (by decide) (by decide) (by decide)
    (by decide)
  exact ⟨h.1, h.2.1, h.2.2.1⟩
